import Mathlib

/-!
Verification of `ros2_bag_to_csv` against its specification.

The development shallowly embeds the repository's three Python source files:

* `src/ros2_bag_to_pandas/get_data.py` — bag reading, message flattening
  (`unpack_message`), bag-file discovery (`find_rosbag_files`), and the
  pandas materialization of flattened rows into a table;
* `scripts/join_csv_files.py` — concatenation of per-topic CSV tables and
  the sort by the `timestamp` index;
* `scripts/distribute_csv_files.py` — the batch driver (only its
  per-pair exception handling matters here, which is noted in prose).

Python dynamic values that `unpack_message` inspects are modeled by the
inductive type `Value`: an object with `__slots__` is `comp`, a Python
`list` is `vlist`, and anything else is a leaf — either `scalar` or
`unknown`; the code distinguishes leaves from structured values only via
`hasattr(msg, "__slots__")` and `isinstance(value, list)`, so `scalar`
and `unknown` are treated identically by every branch.  Python `dict`
insertion semantics (updating an existing key in place, appending a new
key) are modeled by `dinsert`; `pd.Series(dict)` preserves dict insertion
order, so a flattened message is an association list.  Python f-string
concatenation is String append, and `str(idx)` is `Nat.repr idx`.

External library calls are embedded through their documented contracts:
`pd.concat(axis=0)` concatenates rows and takes the union of columns in
first-seen order padding missing cells with NaN (here `none`), and
`DataFrame.sort_index()` with the default algorithm (`kind='quicksort'`)
guarantees an ascending permutation of the rows but not stability, so it
is modeled as a relation between input and output row lists.
-/

/-- Record model: the shapes `unpack_message` (get_data.py:201-249)
discriminates at runtime.  `comp` is an object carrying `__slots__`
(an ordered list of named fields), `vlist` is a Python list, `scalar`
is a scalar leaf and `unknown` is any other slotless, non-list object;
the source code cannot tell `scalar` from `unknown` apart. -/
inductive Value (α : Type) : Type where
  | scalar  : α → Value α
  | comp    : List (String × Value α) → Value α
  | vlist   : List (Value α) → Value α
  | unknown : Value α

/-- Python dict assignment `d[k] = v` on a dict represented as its ordered
association list: an existing key keeps its position and gets the new
value, a new key is appended at the end. -/
def dinsert {α : Type} (d : List (String × Value α)) (k : String) (v : Value α) :
    List (String × Value α) :=
  if d.any (fun p => p.1 = k) then
    d.map (fun p => if p.1 = k then (k, v) else p)
  else
    d ++ [(k, v)]

/-- `unpacked_data.update(nested_data)` (get_data.py:241): insert every
pair of `nested` into the dict `acc`, in order. -/
def dinsertAll {α : Type} (acc : List (String × Value α)) :
    List (String × Value α) → List (String × Value α)
  | [] => acc
  | (k, v) :: rest => dinsertAll (dinsert acc k v) rest

/-- The loop at get_data.py:232-235: every entry `(nk, nv)` of the nested
unpacked dict is inserted into `acc` under the key `p ++ nk` where
`p = prefix + slot`. -/
def insertNested {α : Type} (acc : List (String × Value α)) (p : String) :
    List (String × Value α) → List (String × Value α)
  | [] => acc
  | (nk, nv) :: rest => insertNested (dinsert acc (p ++ nk) nv) p rest

mutual

/-- `unpack_message(msg, prefix)` (get_data.py:201-249).  A message with
`__slots__` is unpacked slot by slot into a dict (modeled by `msgSlots`
threading the dict accumulator); any other object yields the empty
Series (get_data.py:249). -/
def unpack_message {α : Type} (msg : Value α) (pre : String) :
    List (String × Value α) :=
  match msg with
  | .comp slots => msgSlots slots pre []
  | _ => []

/-- The `for slot in msg.__slots__` loop (get_data.py:226-247).  A slot
value with `__slots__` is unpacked with the *default* empty prefix and
re-keyed as `prefix + slot + nested_key` (lines 229-235); a list is
handled element-wise (lines 236-244, `msgItems`); any other value is
stored under `prefix + slot` (line 247). -/
def msgSlots {α : Type} (slots : List (String × Value α)) (pre : String)
    (acc : List (String × Value α)) : List (String × Value α) :=
  match slots with
  | [] => acc
  | (slot, .comp s) :: rest =>
      msgSlots rest pre (insertNested acc (pre ++ slot) (unpack_message (.comp s) ""))
  | (slot, .vlist items) :: rest =>
      msgSlots rest pre (msgItems items (pre ++ slot) 0 acc)
  | (slot, v) :: rest =>
      msgSlots rest pre (dinsert acc (pre ++ slot) v)

/-- The `for idx, item in enumerate(value)` loop (get_data.py:237-244).
An item with `__slots__` is unpacked with prefix
`prefix + slot + "[" + str(idx) + "]"` and merged via `dict.update`;
any other item (scalars, but also nested plain lists) is stored whole
under that bracketed key. -/
def msgItems {α : Type} (items : List (Value α)) (base : String) (idx : Nat)
    (acc : List (String × Value α)) : List (String × Value α) :=
  match items with
  | [] => acc
  | (.comp s) :: rest =>
      msgItems rest base (idx + 1)
        (dinsertAll acc (unpack_message (.comp s) (base ++ "[" ++ Nat.repr idx ++ "]")))
  | item :: rest =>
      msgItems rest base (idx + 1)
        (dinsert acc (base ++ "[" ++ Nat.repr idx ++ "]") item)

end

mutual

/-- The key-emission trace of `unpack_message`: the same recursion as
`unpack_message`/`msgSlots`/`msgItems`, but recording each dict
assignment `unpacked_data[key] = value` as one emitted `(key, value)`
pair instead of applying the dict's overwrite-on-collision semantics.
`unpack_message msg pre` is exactly this trace folded through `dinsert`;
the trace makes each structural path's generated column key visible even
when two paths collapse to the same key string. -/
def unpack_entries {α : Type} (msg : Value α) (pre : String) :
    List (String × Value α) :=
  match msg with
  | .comp slots => entriesSlots slots pre
  | _ => []

/-- Trace of the slot loop: one block of emitted pairs per slot, in slot
order, with the key shapes of `msgSlots`. -/
def entriesSlots {α : Type} (slots : List (String × Value α)) (pre : String) :
    List (String × Value α) :=
  match slots with
  | [] => []
  | (slot, .comp s) :: rest =>
      (unpack_entries (.comp s) "").map (fun q => (pre ++ slot ++ q.1, q.2))
        ++ entriesSlots rest pre
  | (slot, .vlist items) :: rest =>
      entriesItems items (pre ++ slot) 0 ++ entriesSlots rest pre
  | (slot, v) :: rest =>
      (pre ++ slot, v) :: entriesSlots rest pre

/-- Trace of the list-item loop, with the bracketed key shapes of
`msgItems`. -/
def entriesItems {α : Type} (items : List (Value α)) (base : String) (idx : Nat) :
    List (String × Value α) :=
  match items with
  | [] => []
  | (.comp s) :: rest =>
      unpack_entries (.comp s) (base ++ "[" ++ Nat.repr idx ++ "]")
        ++ entriesItems rest base (idx + 1)
  | item :: rest =>
      (base ++ "[" ++ Nat.repr idx ++ "]", item) :: entriesItems rest base (idx + 1)

end

/-- Distinctness of the field names of one composite, as a boolean.
Python guarantees it for `__slots__`. -/
def namesNodup : List String → Bool
  | [] => true
  | n :: rest => !(rest.contains n) && namesNodup rest

mutual

/-- Well-formedness of a record tree in the sense of the spec: at every
composite node the field names are pairwise distinct (as `__slots__`
guarantees).  Boundedness of depth and width is automatic for the
inductive type. -/
def wellformed {α : Type} : Value α → Bool
  | .comp slots => namesNodup (slots.map Prod.fst) && wfSlots slots
  | .vlist items => wfItems items
  | _ => true

/-- `wellformed` on each field value of a composite. -/
def wfSlots {α : Type} : List (String × Value α) → Bool
  | [] => true
  | (_, v) :: rest => wellformed v && wfSlots rest

/-- `wellformed` on each element of a list. -/
def wfItems {α : Type} : List (Value α) → Bool
  | [] => true
  | v :: rest => wellformed v && wfItems rest

end

/-- No element of the list is a composite. -/
def flatItems {α : Type} : List (Value α) → Bool
  | [] => true
  | (.comp _) :: _ => false
  | _ :: rest => flatItems rest

/-- A slot list is flat when no field value is a composite and no list
element is a composite: the record tree has depth at most one (each
field is a leaf or a list of leaves). -/
def flatSlots {α : Type} : List (String × Value α) → Bool
  | [] => true
  | (_, .comp _) :: _ => false
  | (_, .vlist items) :: rest => flatItems items && flatSlots rest
  | _ :: rest => flatSlots rest

/-- A string containing neither `[` nor `]`. -/
def bracketFree (s : String) : Bool :=
  !(s.data.contains '[') && !(s.data.contains ']')

/-- Every name of the list is `bracketFree`. -/
def namesBracketFree : List String → Bool
  | [] => true
  | n :: rest => bracketFree n && namesBracketFree rest

/-- The bracketed column key `base ++ "[" ++ str i ++ "]"` that
`unpack_message` builds for list element `i` (get_data.py:240,244). -/
def bkey (base : String) (i : Nat) : String :=
  base ++ "[" ++ Nat.repr i ++ "]"

/- ------------------------------------------------------------------
Table Builder: pandas materialization of the flattened Series.
At get_data.py:157-164 `msgs["message"].apply(unpack_message ...)`
builds a DataFrame out of one Series per row: the columns are the union
of all row keys in order of first appearance, and a row that lacks a
column holds NaN (`none`) there.
------------------------------------------------------------------ -/

/-- Append to `acc` the keys of `ks` not seen yet, preserving first-seen
order. -/
def addNew (acc : List String) (ks : List String) : List String :=
  ks.foldl (fun a k => if a.contains k then a else a ++ [k]) acc

/-- Column universe of a list of flattened rows: union of all keys in
first-seen order (pandas column construction). -/
def build_columns {α : Type} (rows : List (List (String × α))) : List String :=
  rows.foldl (fun acc r => addNew acc (r.map Prod.fst)) []

/-- The materialized wide table: the column list and, per row, one cell
per column — `some v` when the row has key `c` with value `v`, `none`
(NaN) when it lacks the column. -/
def build_table {α : Type} (rows : List (List (String × α))) :
    List String × List (List (Option α)) :=
  (build_columns rows,
   rows.map (fun r => (build_columns rows).map (fun c => r.lookup c)))

/- ------------------------------------------------------------------
Log source reading (get_data.py:12-120).  The rosbag2 reader is embedded
by its interface: opening yields either an error (the `except` branch)
or the sequence of `(topic, data, t)` triples the `while reader.has_next()`
loop consumes; `get_message`/`deserialize_message` is the function
`getMsg` from topic name and raw data to the message object.
------------------------------------------------------------------ -/

/-- A Python value returned by `read_msg_from_bag_as_dataframe`: the
failure branch (get_data.py:92) returns a bare Python list, while the
success path returns a DataFrame indexed by timestamp. -/
inductive PyReadResult (μ : Type) : Type where
  | pylist : List μ → PyReadResult μ
  | frame  : List (Nat × μ) → PyReadResult μ

/-- `read_msg_data_from_bag` (get_data.py:12-58): on a failed open, print
and return `[]`; otherwise collect the messages of `topic` in read
order. -/
def read_msg_data_from_bag {δ μ : Type} (opened : Except String (List (String × δ × Nat)))
    (topic : String) (getMsg : String → δ → μ) : List μ :=
  match opened with
  | .error _ => []
  | .ok entries =>
      entries.foldl
        (fun msgs e => if e.1 = topic then msgs ++ [getMsg e.1 e.2.1] else msgs) []

/-- `read_msg_from_bag_as_dataframe` (get_data.py:61-120): on a failed
open, print and return the bare list `[]` (line 92); otherwise build the
DataFrame of `(timestamp, message)` rows for `topic`, indexed by
timestamp. -/
def read_msg_from_bag_as_dataframe {δ μ : Type}
    (opened : Except String (List (String × δ × Nat))) (topic : String)
    (getMsg : String → δ → μ) : PyReadResult μ :=
  match opened with
  | .error _ => .pylist []
  | .ok entries =>
      .frame (entries.foldl
        (fun rows e => if e.1 = topic then rows ++ [(e.2.2, getMsg e.1 e.2.1)] else rows) [])

/- ------------------------------------------------------------------
Log discovery (get_data.py:167-198).  The directory tree seen by
`os.walk` and `os.path.exists` is modeled by `Dir`; a path is the list
of its segments.  `os.path.join(root, '../', 'DATAIGNORE')` resolves to
the DATAIGNORE name inside the parent directory of `root`; when `root`
has no parent inside the modeled tree the resolved path lies outside
it and the existence test is `false` (the model contains everything
the walk can reach).
------------------------------------------------------------------ -/

/-- Python's `str.endswith`, on the string's character list. -/
def endswith (s suf : String) : Bool := suf.data.isSuffixOf s.data

/-- A directory: its plain file names and its named subdirectories. -/
inductive Dir : Type where
  | mk : List String → List (String × Dir) → Dir

/-- The file names directly inside a directory. -/
def Dir.files : Dir → List String
  | .mk fs _ => fs

/-- The named subdirectories of a directory. -/
def Dir.subdirs : Dir → List (String × Dir)
  | .mk _ ds => ds

/-- Resolve a path of directory segments from `d`. -/
def lookupDir : List String → Dir → Option Dir
  | [], d => some d
  | seg :: rest, d =>
      match (Dir.subdirs d).lookup seg with
      | some d' => lookupDir rest d'
      | none => none

/-- `os.path.exists` on the modeled tree: the path names either a file
or a directory reachable from `world`. -/
def existsPath (world : Dir) : List String → Bool
  | [] => true
  | [x] => (Dir.files world).contains x || ((Dir.subdirs world).lookup x).isSome
  | x :: rest =>
      match (Dir.subdirs world).lookup x with
      | some d => existsPath d rest
      | none => false

/-- The test at get_data.py:192-193:
`os.path.exists(os.path.join(root, '../', 'DATAIGNORE'))`.  The `..`
is resolved against `root`; a `root` with no parent inside the modeled
tree makes the test `false`. -/
def dataIgnoreCheck (world : Dir) (root : List String) : Bool :=
  match root with
  | [] => false
  | _ => existsPath world (root.dropLast ++ ["DATAIGNORE"])

mutual

/-- `os.walk(base)` on the modeled tree: the `(root, files)` pairs in
top-down order (the unused `dirs` component is dropped). -/
def walk (base : List String) : Dir → List (List String × List String)
  | .mk fs subs => (base, fs) :: walkSubs base subs

/-- `os.walk` recursion into the subdirectories, in order. -/
def walkSubs (base : List String) : List (String × Dir) → List (List String × List String)
  | [] => []
  | (n, d) :: rest => walk (base ++ [n]) d ++ walkSubs base rest

end

/-- `find_rosbag_files(from_dir)` (get_data.py:167-198): walk the tree
under `fromDir`, keep files ending in `.db3`, and skip a file when
`root/../DATAIGNORE` exists.  A `fromDir` that does not exist walks
nothing. -/
def find_rosbag_files (world : Dir) (fromDir : List String) : List (List String) :=
  match lookupDir fromDir world with
  | none => []
  | some d =>
      (walk fromDir d).flatMap (fun rf =>
        rf.2.filterMap (fun f =>
          if !(endswith f ".db3") then none
          else if dataIgnoreCheck world rf.1 then none
          else some (rf.1 ++ [f])))

/- ------------------------------------------------------------------
Multi-table time merge (scripts/join_csv_files.py:12-41).  Each CSV read
back with `index_col='timestamp'` is a table: a column list (the value
columns) and rows of `(timestamp, cells)` in file order, every row
keyed exactly by the table's columns.  `pd.concat(dataframes, axis=0)`
concatenates the rows in source order over the first-seen union of the
columns, padding missing cells with NaN (`none`).
`concatenated_df.sort_index()` is called with the library default
`kind='quicksort'`: its documented contract is an ascending reordering
of the rows, with no stability guarantee, so the sort — and hence
`join_csv_files` — is a relation between the concatenated rows and the
possible outputs.
------------------------------------------------------------------ -/

/-- One CSV table as `join_csv_files` loads it. -/
structure CsvTable where
  cols : List String
  rows : List (Nat × List (String × Int))

/-- A row of the merged table: its timestamp and one `(column, cell)`
pair per column of the merged column universe, `none` marking NaN. -/
abbrev MergedRow := Nat × List (String × Option Int)

/-- Column universe of `pd.concat`: union of the tables' columns in
first-seen order. -/
def unionCols (dfs : List CsvTable) : List String :=
  dfs.foldl (fun acc t => addNew acc t.cols) []

/-- The rows of `pd.concat(dataframes, axis=0)`: all rows of all tables,
in source-table order then row order, each padded to the merged column
universe with `none` for the columns its table lacks. -/
def concatRows (dfs : List CsvTable) : List MergedRow :=
  dfs.flatMap (fun t =>
    t.rows.map (fun r => (r.1, (unionCols dfs).map (fun c => (c, r.2.lookup c)))))

/-- Comparison of merged rows by timestamp. -/
def tsLE (a b : MergedRow) : Prop := a.1 ≤ b.1

/-- Ascending timestamps. -/
def ascendingByTs (l : List MergedRow) : Prop :=
  List.Pairwise tsLE l

instance : DecidableRel tsLE := fun a b => Nat.decLe a.1 b.1

instance (l : List MergedRow) : Decidable (ascendingByTs l) :=
  inferInstanceAs (Decidable (List.Pairwise tsLE l))

instance : IsTotal MergedRow tsLE := ⟨fun a b => Nat.le_total a.1 b.1⟩

instance : IsTrans MergedRow tsLE := ⟨fun _ _ _ h h' => Nat.le_trans h h'⟩

/-- `DataFrame.sort_index()` with the default sort algorithm, as a
relation: `out` is some ascending-by-index permutation of `l`.  With
`kind='quicksort'` (the default at join_csv_files.py:36) pandas does
not guarantee which permutation ties take. -/
def sort_index (l out : List MergedRow) : Prop :=
  out.Perm l ∧ ascendingByTs out

/-- `join_csv_files` (join_csv_files.py:12-41), as the relation between
the loaded tables (in directory-listing order) and the merged table
that is written out: concatenate, then sort by the timestamp index. -/
def join_csv_files (dfs : List CsvTable) (out : List MergedRow) : Prop :=
  sort_index (concatRows dfs) out

/-- The stable reference sort of the specification: insertion sort by
timestamp, which keeps rows with equal timestamps in their pre-sort
order. -/
def stableSortByTs (l : List MergedRow) : List MergedRow :=
  List.insertionSort tsLE l

/-- The column keys one slot contributes in a flat record: `pre ++ name`
for a leaf field, the bracketed keys for a list field (composites
contribute through their own recursion and are excluded by flatness). -/
def slotKeys {α : Type} (pre : String) (sv : String × Value α) : List String :=
  match sv.2 with
  | .comp _ => []
  | .vlist items => (List.range items.length).map (fun j => bkey (pre ++ sv.1) j)
  | _ => [pre ++ sv.1]

/- ------------------------------------------------------------------
Concrete instances used by counterexamples and witnesses.
------------------------------------------------------------------ -/

/-- A well-formed record with two distinct structural paths — field
`ab`, and field `b` of composite field `a` — whose concatenated column
keys coincide. -/
def collisionRec : Value Int :=
  .comp [("ab", .scalar 1), ("a", .comp [("b", .scalar 2)])]

/-- A record with one nested composite, to exhibit the separator
actually used between a field and its nested fields. -/
def nestedRec : Value Int := .comp [("a", .comp [("b", .scalar 1)])]

/-- A flat record used to witness the amended distinctness statement. -/
def flatRec : List (String × Value Int) :=
  [("x", .scalar 1), ("y", .vlist [.scalar 2, .scalar 3]), ("z", .unknown)]

/-- CSV table `A` of the stability scenario: one row at `t = 2`. -/
def tableA : CsvTable := ⟨["a"], [(2, [("a", 1)])]⟩

/-- CSV table `B` of the stability scenario: one row at `t = 2`,
added after `A`. -/
def tableB : CsvTable := ⟨["b"], [(2, [("b", 2)])]⟩

/-- CSV table with rows at `t = 5` and `t = 1`, in that order (the
spec's merge-order scenario). -/
def tableC : CsvTable := ⟨["a"], [(5, [("a", 10)]), (1, [("a", 11)])]⟩

/-- CSV table with one row at `t = 3`. -/
def tableD : CsvTable := ⟨["b"], [(3, [("b", 12)])]⟩

/-- A directory tree whose top-level directory `data` carries the
`DATAIGNORE` sentinel while a bag file sits two levels deeper. -/
def exampleWorld : Dir :=
  .mk [] [("data", .mk ["DATAIGNORE"] [("run", .mk [] [("bag", .mk ["x.db3"] [])])])]

/- ------------------------------------------------------------------
Injectivity of the decimal rendering `Nat.repr` used for list indices.
------------------------------------------------------------------ -/

theorem digitChar_inj_lt : ∀ a < 10, ∀ b < 10, Nat.digitChar a = Nat.digitChar b → a = b := by
  decide

theorem toDigitsCore_eq_digits :
    ∀ (fuel n : Nat) (ds : List Char), 0 < n → n < 10 ^ fuel →
      Nat.toDigitsCore 10 fuel n ds
        = ((Nat.digits 10 n).map Nat.digitChar).reverse ++ ds := by
  intro fuel
  induction fuel with
  | zero => intro n ds hn hlt; simp at hlt; omega
  | succ fuel ih =>
    intro n ds hn hlt
    rw [Nat.toDigitsCore]
    have hdig : Nat.digits 10 n = n % 10 :: Nat.digits 10 (n / 10) :=
      Nat.digits_def' (by norm_num) hn
    by_cases hz : n / 10 = 0
    · simp only [hz, if_pos rfl]
      rw [hdig, hz]
      simp
    · simp only [hz, if_neg hz]
      have hpos : 0 < n / 10 := Nat.pos_of_ne_zero hz
      have hbound : n / 10 < 10 ^ fuel := by
        apply (Nat.div_lt_iff_lt_mul (by norm_num : 0 < 10)).mpr
        calc n < 10 ^ (fuel + 1) := hlt
        _ = 10 ^ fuel * 10 := by rw [Nat.pow_succ]
      rw [ih (n / 10) (Nat.digitChar (n % 10) :: ds) hpos hbound, hdig]
      simp

theorem repr_eq_digits (n : Nat) (hn : 0 < n) :
    Nat.repr n = (((Nat.digits 10 n).map Nat.digitChar).reverse).asString := by
  have hfuel : n < 10 ^ (n + 1) := by
    calc n < 2 ^ n := Nat.lt_two_pow n
    _ ≤ 10 ^ n := Nat.pow_le_pow_left (by norm_num) n
    _ ≤ 10 ^ (n + 1) := Nat.pow_le_pow_right (by norm_num) (Nat.le_succ n)
  show (Nat.toDigits 10 n).asString = _
  rw [Nat.toDigits, toDigitsCore_eq_digits (n + 1) n [] hn hfuel]
  simp

theorem map_digitChar_inj :
    ∀ (l1 l2 : List Nat), (∀ x ∈ l1, x < 10) → (∀ x ∈ l2, x < 10) →
      l1.map Nat.digitChar = l2.map Nat.digitChar → l1 = l2 := by
  intro l1
  induction l1 with
  | nil => intro l2 _ _ h; cases l2 <;> simp_all
  | cons a l1 ih =>
    intro l2 h1 h2 h
    cases l2 with
    | nil => simp at h
    | cons b l2 =>
      simp only [List.map_cons, List.cons.injEq] at h
      have ha : a < 10 := h1 a (by simp)
      have hb : b < 10 := h2 b (by simp)
      have hab : a = b := digitChar_inj_lt a ha b hb h.1
      have : l1 = l2 := ih l2 (fun x hx => h1 x (by simp [hx])) (fun x hx => h2 x (by simp [hx])) h.2
      rw [hab, this]

theorem natRepr_injective : ∀ {m n : Nat}, Nat.repr m = Nat.repr n → m = n := by
  have key : ∀ m : Nat, 0 < m → Nat.repr m ≠ "0" := by
    intro m hm h0
    have := repr_eq_digits m hm
    rw [this] at h0
    have hdata : ((Nat.digits 10 m).map Nat.digitChar).reverse = ['0'] :=
      congrArg String.data h0
    have : (Nat.digits 10 m).map Nat.digitChar = ['0'] := by
      have := congrArg List.reverse hdata
      simpa using this
    cases hd : Nat.digits 10 m with
    | nil => rw [hd] at this; simp at this
    | cons d tl =>
      rw [hd] at this
      cases tl with
      | cons _ _ => simp at this
      | nil =>
        simp only [List.map_cons, List.map_nil, List.cons.injEq] at this
        have hdlt : d < 10 := Nat.digits_lt_base (by norm_num) (by rw [hd]; simp)
        have hd0 : d = 0 := by
          have h0c : Nat.digitChar 0 = '0' := by decide
          exact digitChar_inj_lt d hdlt 0 (by norm_num) (by rw [this.1, h0c])
        have : m = Nat.ofDigits 10 (Nat.digits 10 m) := (Nat.ofDigits_digits 10 m).symm
        rw [hd, hd0] at this
        simp [Nat.ofDigits] at this
        omega
  intro m n h
  rcases Nat.eq_zero_or_pos m with hm | hm
  · rcases Nat.eq_zero_or_pos n with hn | hn
    · omega
    · exact absurd h.symm (by subst hm; exact key n hn)
  · rcases Nat.eq_zero_or_pos n with hn | hn
    · exact absurd h (by subst hn; exact key m hm)
    · rw [repr_eq_digits m hm, repr_eq_digits n hn] at h
      have hdata := congrArg String.data h
      simp only [List.asString] at hdata
      have hrev : ((Nat.digits 10 m).map Nat.digitChar).reverse
          = ((Nat.digits 10 n).map Nat.digitChar).reverse := hdata
      have hmap : (Nat.digits 10 m).map Nat.digitChar = (Nat.digits 10 n).map Nat.digitChar := by
        have := congrArg List.reverse hrev
        simpa using this
      have hdig : Nat.digits 10 m = Nat.digits 10 n :=
        map_digitChar_inj _ _ (fun x hx => Nat.digits_lt_base (by norm_num) hx)
          (fun x hx => Nat.digits_lt_base (by norm_num) hx) hmap
      calc m = Nat.ofDigits 10 (Nat.digits 10 m) := (Nat.ofDigits_digits 10 m).symm
      _ = Nat.ofDigits 10 (Nat.digits 10 n) := by rw [hdig]
      _ = n := Nat.ofDigits_digits 10 n

/- ------------------------------------------------------------------
String lemmas about the concatenated column keys.
------------------------------------------------------------------ -/

theorem str_append_left_cancel {s a b : String} (h : s ++ a = s ++ b) : a = b := by
  apply String.ext
  have := congrArg String.data h
  simp only [String.data_append] at this
  exact List.append_cancel_left this

theorem bkey_data (base : String) (i : Nat) :
    (bkey base i).data = base.data ++ '[' :: ((Nat.repr i).data ++ [']']) := by
  simp [bkey, String.data_append]

theorem bkey_inj {base : String} {i j : Nat} (h : bkey base i = bkey base j) : i = j := by
  have hd := congrArg String.data h
  rw [bkey_data, bkey_data] at hd
  have h1 : '[' :: ((Nat.repr i).data ++ [']']) = '[' :: ((Nat.repr j).data ++ [']']) :=
    List.append_cancel_left hd
  have h2 : (Nat.repr i).data = (Nat.repr j).data :=
    List.append_cancel_right (List.cons.injEq .. ▸ h1).2
  exact natRepr_injective (String.ext h2)

theorem bracketFree_not_mem {s : String} (h : bracketFree s = true) : '[' ∉ s.data := by
  simp only [bracketFree, Bool.and_eq_true, Bool.not_eq_true'] at h
  simpa using h.1

theorem takeWhile_append_all {p : Char → Bool} :
    ∀ (l m : List Char), (∀ c ∈ l, p c = true) →
      List.takeWhile p (l ++ m) = l ++ List.takeWhile p m := by
  intro l
  induction l with
  | nil => simp
  | cons a l ih =>
    intro m h
    have ha : p a = true := h a (by simp)
    simp only [List.cons_append, List.takeWhile_cons, ha, if_pos]
    rw [ih m (fun c hc => h c (by simp [hc]))]

theorem plain_ne_bkey {a : String} (ha : bracketFree a = true) (p b : String) (j : Nat) :
    p ++ a ≠ bkey (p ++ b) j := by
  intro h
  have hd := congrArg String.data h
  rw [bkey_data] at hd
  simp only [String.data_append, List.append_assoc] at hd
  have : a.data = b.data ++ '[' :: ((Nat.repr j).data ++ [']']) := List.append_cancel_left hd
  have hmem : '[' ∈ a.data := by rw [this]; simp
  exact bracketFree_not_mem ha hmem

theorem bkey_ne_bkey_of_name_ne {a b : String} (ha : bracketFree a = true)
    (hb : bracketFree b = true) (hne : a ≠ b) (p : String) (i j : Nat) :
    bkey (p ++ a) i ≠ bkey (p ++ b) j := by
  intro h
  have hd := congrArg String.data h
  rw [bkey_data, bkey_data] at hd
  simp only [String.data_append, List.append_assoc] at hd
  have hcore : a.data ++ '[' :: ((Nat.repr i).data ++ [']'])
      = b.data ++ '[' :: ((Nat.repr j).data ++ [']']) := List.append_cancel_left hd
  have hq : ∀ c ∈ a.data, (!(c == '[')) = true := by
    intro c hc
    have := bracketFree_not_mem ha
    simp only [Bool.not_eq_true', beq_eq_false_iff_ne, ne_eq]
    intro hceq; exact this (hceq ▸ hc)
  have hq' : ∀ c ∈ b.data, (!(c == '[')) = true := by
    intro c hc
    have := bracketFree_not_mem hb
    simp only [Bool.not_eq_true', beq_eq_false_iff_ne, ne_eq]
    intro hceq; exact this (hceq ▸ hc)
  have htw := congrArg (List.takeWhile (fun c => !(c == '['))) hcore
  rw [takeWhile_append_all _ _ hq, takeWhile_append_all _ _ hq'] at htw
  simp only [List.takeWhile_cons] at htw
  norm_num at htw
  exact hne (String.ext htw)

/- ------------------------------------------------------------------
Key distinctness for flat records.
------------------------------------------------------------------ -/

theorem namesNodup_iff : ∀ l : List String, namesNodup l = true ↔ l.Nodup := by
  intro l
  induction l with
  | nil => simp [namesNodup]
  | cons n rest ih =>
    simp only [namesNodup, Bool.and_eq_true, Bool.not_eq_true', List.nodup_cons]
    constructor
    · intro h
      refine ⟨fun hmem => ?_, ih.mp h.2⟩
      have := h.1
      simp [hmem] at this
    · intro h
      refine ⟨?_, ih.mpr h.2⟩
      have := h.1
      simpa using this

theorem namesBracketFree_mem :
    ∀ l : List String, namesBracketFree l = true → ∀ n ∈ l, bracketFree n = true := by
  intro l
  induction l with
  | nil => simp
  | cons m rest ih =>
    simp only [namesBracketFree, Bool.and_eq_true]
    intro h n hn
    rcases List.mem_cons.mp hn with rfl | hn
    · exact h.1
    · exact ih h.2 n hn

theorem entriesItems_keys_flat {α : Type} :
    ∀ (items : List (Value α)) (base : String) (idx : Nat), flatItems items = true →
      (entriesItems items base idx).map Prod.fst
        = (List.range items.length).map (fun j => bkey base (idx + j)) := by
  intro items
  induction items with
  | nil => intro base idx _; simp [entriesItems]
  | cons item rest ih =>
    intro base idx hflat
    cases item with
    | comp s => simp [flatItems] at hflat
    | scalar a =>
      simp only [entriesItems, List.map_cons, List.length_cons]
      rw [ih base (idx + 1) (by simpa [flatItems] using hflat)]
      rw [List.range_succ_eq_map]
      simp only [List.map_cons, List.map_map, Nat.add_zero]
      refine congrArg (fun t => _ :: t) ?_
      refine List.map_congr_left ?_
      intro j _
      simp only [Function.comp_apply, Nat.succ_eq_add_one]
      congr 1
      omega
    | vlist items' =>
      simp only [entriesItems, List.map_cons, List.length_cons]
      rw [ih base (idx + 1) (by simpa [flatItems] using hflat)]
      rw [List.range_succ_eq_map]
      simp only [List.map_cons, List.map_map, Nat.add_zero]
      refine congrArg (fun t => _ :: t) ?_
      refine List.map_congr_left ?_
      intro j _
      simp only [Function.comp_apply, Nat.succ_eq_add_one]
      congr 1
      omega
    | unknown =>
      simp only [entriesItems, List.map_cons, List.length_cons]
      rw [ih base (idx + 1) (by simpa [flatItems] using hflat)]
      rw [List.range_succ_eq_map]
      simp only [List.map_cons, List.map_map, Nat.add_zero]
      refine congrArg (fun t => _ :: t) ?_
      refine List.map_congr_left ?_
      intro j _
      simp only [Function.comp_apply, Nat.succ_eq_add_one]
      congr 1
      omega

theorem entriesSlots_keys_flat {α : Type} :
    ∀ (slots : List (String × Value α)) (pre : String), flatSlots slots = true →
      (entriesSlots slots pre).map Prod.fst = slots.flatMap (slotKeys pre) := by
  intro slots
  induction slots with
  | nil => intro pre _; simp [entriesSlots]
  | cons sv rest ih =>
    intro pre hflat
    obtain ⟨slot, v⟩ := sv
    cases v with
    | comp s => simp [flatSlots] at hflat
    | scalar a =>
      simp only [entriesSlots, List.map_cons, List.flatMap_cons, slotKeys]
      rw [ih pre (by simpa [flatSlots] using hflat)]
      rfl
    | vlist items =>
      simp only [flatSlots, Bool.and_eq_true] at hflat
      simp only [entriesSlots, List.flatMap_cons, slotKeys, List.map_append]
      rw [ih pre hflat.2, entriesItems_keys_flat items (pre ++ slot) 0 hflat.1]
      simp
    | unknown =>
      simp only [entriesSlots, List.map_cons, List.flatMap_cons, slotKeys]
      rw [ih pre (by simpa [flatSlots] using hflat)]
      rfl

theorem slotKeys_nodup {α : Type} (pre : String) (sv : String × Value α) :
    (slotKeys pre sv).Nodup := by
  obtain ⟨slot, v⟩ := sv
  cases v with
  | comp s => simp [slotKeys]
  | vlist items =>
    simp only [slotKeys]
    refine List.Nodup.map ?_ (List.nodup_range _)
    intro i j h
    exact bkey_inj h
  | scalar a => simp [slotKeys]
  | unknown => simp [slotKeys]

theorem slotKeys_disjoint {α : Type} (pre : String) {sv1 sv2 : String × Value α}
    (h1 : bracketFree sv1.1 = true) (h2 : bracketFree sv2.1 = true)
    (hne : sv1.1 ≠ sv2.1) : List.Disjoint (slotKeys pre sv1) (slotKeys pre sv2) := by
  intro k hk1 hk2
  obtain ⟨n1, v1⟩ := sv1
  obtain ⟨n2, v2⟩ := sv2
  have key_shape : ∀ (n : String) (v : Value α), bracketFree n = true → k ∈ slotKeys pre (n, v) →
      k = pre ++ n ∨ ∃ j, k = bkey (pre ++ n) j := by
    intro n v _ hk
    cases v with
    | comp s => simp [slotKeys] at hk
    | vlist items =>
      simp only [slotKeys, List.mem_map] at hk
      obtain ⟨j, _, rfl⟩ := hk
      exact Or.inr ⟨j, rfl⟩
    | scalar a => simp only [slotKeys, List.mem_singleton] at hk; exact Or.inl hk
    | unknown => simp only [slotKeys, List.mem_singleton] at hk; exact Or.inl hk
  rcases key_shape n1 v1 h1 hk1 with rfl | ⟨i, rfl⟩
  · rcases key_shape n2 v2 h2 hk2 with heq | ⟨j, heq⟩
    · exact hne (str_append_left_cancel heq)
    · exact plain_ne_bkey h1 pre n2 j heq
  · rcases key_shape n2 v2 h2 hk2 with heq | ⟨j, heq⟩
    · exact plain_ne_bkey h2 pre n1 i heq.symm
    · exact bkey_ne_bkey_of_name_ne h1 h2 hne pre i j heq

theorem flat_trace_keys_nodup {α : Type} (slots : List (String × Value α)) (pre : String)
    (hflat : flatSlots slots = true) (hnd : namesNodup (slots.map Prod.fst) = true)
    (hbf : namesBracketFree (slots.map Prod.fst) = true) :
    ((unpack_entries (.comp slots) pre).map Prod.fst).Nodup := by
  have : unpack_entries (.comp slots) pre = entriesSlots slots pre := by
    simp [unpack_entries]
  rw [this, entriesSlots_keys_flat slots pre hflat]
  rw [List.nodup_flatMap]
  constructor
  · intro sv _
    exact slotKeys_nodup pre sv
  · have hnodup : (slots.map Prod.fst).Nodup := (namesNodup_iff _).mp hnd
    have hpw : slots.Pairwise (fun a b => a.1 ≠ b.1) := List.pairwise_map.mp hnodup
    refine List.Pairwise.imp_of_mem ?_ hpw
    intro a b ha hb hne
    exact slotKeys_disjoint pre
      (namesBracketFree_mem _ hbf a.1 (List.mem_map_of_mem Prod.fst ha))
      (namesBracketFree_mem _ hbf b.1 (List.mem_map_of_mem Prod.fst hb)) hne

/- ------------------------------------------------------------------
Dict-insertion lemmas.
------------------------------------------------------------------ -/

theorem dinsert_mem {α : Type} {acc : List (String × Value α)} {k k' : String}
    {v v' : Value α} (h : (k', v') ∈ dinsert acc k v) : k' = k ∨ (k', v') ∈ acc := by
  unfold dinsert at h
  by_cases hc : acc.any (fun p => p.1 = k)
  · rw [if_pos hc] at h
    obtain ⟨p, hp, hpe⟩ := List.mem_map.mp h
    by_cases hpk : p.1 = k
    · rw [if_pos hpk] at hpe
      exact Or.inl (congrArg Prod.fst hpe.symm)
    · rw [if_neg hpk] at hpe
      exact Or.inr (hpe ▸ hp)
  · rw [if_neg hc] at h
    rcases List.mem_append.mp h with h | h
    · exact Or.inr h
    · simp only [List.mem_singleton, Prod.mk.injEq] at h
      exact Or.inl h.1

theorem dinsert_keys {α : Type} (acc : List (String × Value α)) (k : String) (v : Value α) :
    (dinsert acc k v).map Prod.fst = acc.map Prod.fst
      ∨ (dinsert acc k v).map Prod.fst = acc.map Prod.fst ++ [k] := by
  unfold dinsert
  by_cases hc : acc.any (fun p => p.1 = k)
  · rw [if_pos hc]
    left
    rw [List.map_map]
    refine List.map_congr_left ?_
    intro p _
    by_cases hpk : p.1 = k
    · simp [hpk]
    · simp [hpk]
  · rw [if_neg hc]
    right
    simp

theorem dinsert_keys_nodup {α : Type} {acc : List (String × Value α)} {k : String}
    {v : Value α} (h : (acc.map Prod.fst).Nodup) :
    ((dinsert acc k v).map Prod.fst).Nodup := by
  unfold dinsert
  by_cases hc : acc.any (fun p => p.1 = k)
  · rw [if_pos hc]
    have : (acc.map (fun p => if p.1 = k then (k, v) else p)).map Prod.fst
        = acc.map Prod.fst := by
      rw [List.map_map]
      refine List.map_congr_left ?_
      intro p _
      by_cases hpk : p.1 = k
      · simp [hpk]
      · simp [hpk]
    rw [this]
    exact h
  · rw [if_neg hc]
    rw [List.map_append]
    simp only [List.map_cons, List.map_nil]
    rw [List.nodup_append]
    refine ⟨h, List.nodup_singleton k, ?_⟩
    intro a ha
    simp only [List.mem_singleton]
    intro hak
    subst hak
    obtain ⟨p, hp, hpk⟩ := List.mem_map.mp ha
    exact hc (List.any_eq_true.mpr ⟨p, hp, decide_eq_true hpk⟩)

theorem dinsert_fresh {α : Type} {acc : List (String × Value α)} {k : String}
    (v : Value α) (h : k ∉ acc.map Prod.fst) : dinsert acc k v = acc ++ [(k, v)] := by
  unfold dinsert
  rw [if_neg]
  intro hc
  obtain ⟨p, hp, hpk⟩ := List.any_eq_true.mp hc
  exact h (of_decide_eq_true hpk ▸ List.mem_map_of_mem Prod.fst hp)

theorem dinsertAll_mem {α : Type} :
    ∀ (l acc : List (String × Value α)) (k' : String) (v' : Value α),
      (k', v') ∈ dinsertAll acc l → k' ∈ l.map Prod.fst ∨ (k', v') ∈ acc := by
  intro l
  induction l with
  | nil => intro acc k' v' h; exact Or.inr h
  | cons kv rest ih =>
    intro acc k' v' h
    obtain ⟨k, v⟩ := kv
    rcases ih (dinsert acc k v) k' v' h with hmem | hmem
    · exact Or.inl (by simp [hmem])
    · rcases dinsert_mem hmem with rfl | hmem
      · exact Or.inl (by simp)
      · exact Or.inr hmem

theorem dinsertAll_keys_nodup {α : Type} :
    ∀ (l acc : List (String × Value α)), (acc.map Prod.fst).Nodup →
      ((dinsertAll acc l).map Prod.fst).Nodup := by
  intro l
  induction l with
  | nil => intro acc h; exact h
  | cons kv rest ih =>
    intro acc h
    obtain ⟨k, v⟩ := kv
    exact ih (dinsert acc k v) (dinsert_keys_nodup h)

theorem dinsertAll_fresh {α : Type} :
    ∀ (l acc : List (String × Value α)), (l.map Prod.fst).Nodup →
      (∀ k ∈ l.map Prod.fst, k ∉ acc.map Prod.fst) →
      dinsertAll acc l = acc ++ l := by
  intro l
  induction l with
  | nil => intro acc _ _; simp [dinsertAll]
  | cons kv rest ih =>
    intro acc hnd hfresh
    obtain ⟨k, v⟩ := kv
    show dinsertAll (dinsert acc k v) rest = acc ++ (k, v) :: rest
    rw [dinsert_fresh v (hfresh k (by simp))]
    rw [ih (acc ++ [(k, v)]) (by simp only [List.map_cons] at hnd; exact hnd.of_cons) ?_]
    · simp
    · intro k' hk'
      rw [List.map_append]
      simp only [List.mem_append, List.map_cons, List.map_nil, List.mem_singleton]
      push_neg
      refine ⟨hfresh k' (by simp [hk']), ?_⟩
      intro hkk
      subst hkk
      simp only [List.map_cons] at hnd
      exact (List.nodup_cons.mp hnd).1 hk'

theorem insertNested_mem {α : Type} (p : String) :
    ∀ (l acc : List (String × Value α)) (k' : String) (v' : Value α),
      (k', v') ∈ insertNested acc p l →
        (∃ nk ∈ l.map Prod.fst, k' = p ++ nk) ∨ (k', v') ∈ acc := by
  intro l
  induction l with
  | nil => intro acc k' v' h; exact Or.inr h
  | cons kv rest ih =>
    intro acc k' v' h
    obtain ⟨nk, nv⟩ := kv
    rcases ih (dinsert acc (p ++ nk) nv) k' v' h with ⟨nk', hnk', rfl⟩ | hmem
    · exact Or.inl ⟨nk', by simp [hnk'], rfl⟩
    · rcases dinsert_mem hmem with rfl | hmem
      · exact Or.inl ⟨nk, by simp, rfl⟩
      · exact Or.inr hmem

theorem insertNested_keys_nodup {α : Type} (p : String) :
    ∀ (l acc : List (String × Value α)), (acc.map Prod.fst).Nodup →
      ((insertNested acc p l).map Prod.fst).Nodup := by
  intro l
  induction l with
  | nil => intro acc h; exact h
  | cons kv rest ih =>
    intro acc h
    obtain ⟨nk, nv⟩ := kv
    exact ih (dinsert acc (p ++ nk) nv) (dinsert_keys_nodup h)

theorem insertNested_fresh {α : Type} (p : String) :
    ∀ (l acc : List (String × Value α)), (l.map Prod.fst).Nodup →
      (∀ nk ∈ l.map Prod.fst, (p ++ nk) ∉ acc.map Prod.fst) →
      insertNested acc p l = acc ++ l.map (fun q => (p ++ q.1, q.2)) := by
  intro l
  induction l with
  | nil => intro acc _ _; simp [insertNested]
  | cons kv rest ih =>
    intro acc hnd hfresh
    obtain ⟨nk, nv⟩ := kv
    show insertNested (dinsert acc (p ++ nk) nv) p rest = _
    rw [dinsert_fresh nv (hfresh nk (by simp))]
    rw [ih (acc ++ [(p ++ nk, nv)]) (by simp only [List.map_cons] at hnd; exact hnd.of_cons) ?_]
    · simp
    · intro nk' hnk'
      rw [List.map_append]
      simp only [List.mem_append, List.map_cons, List.map_nil, List.mem_singleton]
      push_neg
      refine ⟨hfresh nk' (by simp [hnk']), ?_⟩
      intro hkk
      have hkk' : nk' = nk := str_append_left_cancel hkk
      subst hkk'
      simp only [List.map_cons] at hnd
      exact (List.nodup_cons.mp hnd).1 hnk'

/- ------------------------------------------------------------------
Invariants of `unpack_message`, by functional induction over the
mutual recursion.
------------------------------------------------------------------ -/

theorem unpack_keys_nodup {α : Type} (msg : Value α) (pre : String) :
    ((unpack_message msg pre).map Prod.fst).Nodup := by
  refine @unpack_message.induct α
    (fun msg pre => ((unpack_message msg pre).map Prod.fst).Nodup)
    (fun slots pre acc =>
      (acc.map Prod.fst).Nodup → ((msgSlots slots pre acc).map Prod.fst).Nodup)
    (fun items base idx acc =>
      (acc.map Prod.fst).Nodup → ((msgItems items base idx acc).map Prod.fst).Nodup)
    ?_ ?_ ?_ ?_ ?_ ?_ ?_ ?_ ?_ msg pre
  · intro pre slots h2
    simp only [unpack_message]
    exact h2 (by simp)
  · intro t pre hne
    cases t with
    | comp s => exact (hne s rfl).elim
    | scalar a => simp [unpack_message]
    | vlist items => simp [unpack_message]
    | unknown => simp [unpack_message]
  · intro pre acc h
    simpa only [msgSlots] using h
  · intro pre acc slot s rest _ ih2 h
    simp only [msgSlots]
    exact ih2 (insertNested_keys_nodup (pre ++ slot) _ _ h)
  · intro pre acc slot items rest ih3 ih2 h
    simp only [msgSlots]
    exact ih2 (ih3 h)
  · intro pre acc slot v rest hne1 hne2 ih2 h
    cases v with
    | comp s => exact (hne1 s rfl).elim
    | vlist items => exact (hne2 items rfl).elim
    | scalar a =>
      simp only [msgSlots]
      exact ih2 (dinsert_keys_nodup h)
    | unknown =>
      simp only [msgSlots]
      exact ih2 (dinsert_keys_nodup h)
  · intro base idx acc h
    simpa only [msgItems] using h
  · intro base idx acc s rest _ ih3 h
    simp only [msgItems]
    exact ih3 (dinsertAll_keys_nodup _ _ h)
  · intro base idx acc item rest hne ih3 h
    cases item with
    | comp s => exact (hne s rfl).elim
    | scalar a =>
      simp only [msgItems]
      exact ih3 (dinsert_keys_nodup h)
    | vlist items' =>
      simp only [msgItems]
      exact ih3 (dinsert_keys_nodup h)
    | unknown =>
      simp only [msgItems]
      exact ih3 (dinsert_keys_nodup h)

theorem unpack_key_extends {α : Type} :
    ∀ (msg : Value α) (pre : String) (k : String) (v : Value α),
      (k, v) ∈ unpack_message msg pre → ∃ s, k = pre ++ s := by
  refine @unpack_message.induct α
    (fun msg pre => ∀ k v, (k, v) ∈ unpack_message msg pre → ∃ s, k = pre ++ s)
    (fun slots pre acc => ∀ k v, (k, v) ∈ msgSlots slots pre acc →
      (∃ s, k = pre ++ s) ∨ (k, v) ∈ acc)
    (fun items base idx acc => ∀ k v, (k, v) ∈ msgItems items base idx acc →
      (∃ s, k = base ++ s) ∨ (k, v) ∈ acc)
    ?_ ?_ ?_ ?_ ?_ ?_ ?_ ?_ ?_
  · intro pre slots h2 k v hmem
    simp only [unpack_message] at hmem
    rcases h2 k v hmem with h | h
    · exact h
    · simp at h
  · intro t pre hne k v hmem
    cases t with
    | comp s => exact (hne s rfl).elim
    | scalar a => simp [unpack_message] at hmem
    | vlist items => simp [unpack_message] at hmem
    | unknown => simp [unpack_message] at hmem
  · intro pre acc k v hmem
    simp only [msgSlots] at hmem
    exact Or.inr hmem
  · intro pre acc slot s rest _ ih2 k v hmem
    simp only [msgSlots] at hmem
    rcases ih2 k v hmem with h | hmem'
    · exact Or.inl h
    · rcases insertNested_mem (pre ++ slot) _ _ _ _ hmem' with ⟨nk, _, rfl⟩ | hacc
      · exact Or.inl ⟨slot ++ nk, by rw [String.append_assoc]⟩
      · exact Or.inr hacc
  · intro pre acc slot items rest ih3 ih2 k v hmem
    simp only [msgSlots] at hmem
    rcases ih2 k v hmem with h | hmem'
    · exact Or.inl h
    · rcases ih3 k v hmem' with ⟨s', rfl⟩ | hacc
      · exact Or.inl ⟨slot ++ s', by rw [String.append_assoc]⟩
      · exact Or.inr hacc
  · intro pre acc slot v rest hne1 hne2 ih2 k v' hmem
    cases v with
    | comp s => exact (hne1 s rfl).elim
    | vlist items => exact (hne2 items rfl).elim
    | scalar a =>
      simp only [msgSlots] at hmem
      rcases ih2 k v' hmem with h | hmem'
      · exact Or.inl h
      · rcases dinsert_mem hmem' with rfl | hacc
        · exact Or.inl ⟨slot, rfl⟩
        · exact Or.inr hacc
    | unknown =>
      simp only [msgSlots] at hmem
      rcases ih2 k v' hmem with h | hmem'
      · exact Or.inl h
      · rcases dinsert_mem hmem' with rfl | hacc
        · exact Or.inl ⟨slot, rfl⟩
        · exact Or.inr hacc
  · intro base idx acc k v hmem
    simp only [msgItems] at hmem
    exact Or.inr hmem
  · intro base idx acc s rest ih1 ih3 k v hmem
    simp only [msgItems] at hmem
    rcases ih3 k v hmem with h | hmem'
    · exact Or.inl h
    · rcases dinsertAll_mem _ _ _ _ hmem' with hkey | hacc
      · obtain ⟨⟨k1, v1⟩, hin, hk1⟩ := List.mem_map.mp hkey
        obtain ⟨s', hs'⟩ := ih1 k1 v1 hin
        refine Or.inl ⟨"[" ++ Nat.repr idx ++ "]" ++ s', ?_⟩
        rw [← hk1, hs']
        simp [String.append_assoc]
      · exact Or.inr hacc
  · intro base idx acc item rest hne ih3 k v hmem
    have step : ∀ hmem' : (k, v) ∈ dinsert acc (base ++ "[" ++ Nat.repr idx ++ "]") item,
        (∃ s, k = base ++ s) ∨ (k, v) ∈ acc := by
      intro hmem'
      rcases dinsert_mem hmem' with rfl | hacc
      · exact Or.inl ⟨"[" ++ Nat.repr idx ++ "]", by simp [String.append_assoc]⟩
      · exact Or.inr hacc
    cases item with
    | comp s => exact (hne s rfl).elim
    | scalar a =>
      simp only [msgItems] at hmem
      rcases ih3 k v hmem with h | hmem'
      · exact Or.inl h
      · exact step hmem'
    | vlist items' =>
      simp only [msgItems] at hmem
      rcases ih3 k v hmem with h | hmem'
      · exact Or.inl h
      · exact step hmem'
    | unknown =>
      simp only [msgItems] at hmem
      rcases ih3 k v hmem with h | hmem'
      · exact Or.inl h
      · exact step hmem'

/- ------------------------------------------------------------------
Shape characterizations of `unpack_message`.
------------------------------------------------------------------ -/

theorem unpack_nested_comp {α : Type} (pre name : String) (inner : List (String × Value α)) :
    unpack_message (.comp [(name, .comp inner)]) pre
      = (unpack_message (.comp inner) "").map (fun q => (pre ++ name ++ q.1, q.2)) := by
  have h1 : unpack_message (.comp [(name, .comp inner)]) pre
      = insertNested [] (pre ++ name) (unpack_message (.comp inner) "") := by
    simp only [unpack_message, msgSlots]
  rw [h1]
  rw [insertNested_fresh (pre ++ name) (unpack_message (.comp inner) "") []
    (unpack_keys_nodup _ _) (by simp)]
  simp

theorem unpack_single_scalar {α : Type} (pre name : String) (v : α) :
    unpack_message (.comp [(name, .scalar v)]) pre = [(pre ++ name, .scalar v)] := by
  simp [unpack_message, msgSlots, dinsert]

theorem msgItems_scalars {α : Type} :
    ∀ (vs : List α) (base : String) (idx : Nat) (acc : List (String × Value α)),
      (∀ j, idx ≤ j → bkey base j ∉ acc.map Prod.fst) →
      msgItems (vs.map .scalar) base idx acc
        = acc ++ (List.enumFrom idx vs).map (fun p => (bkey base p.1, Value.scalar p.2)) := by
  intro vs
  induction vs with
  | nil => intro base idx acc _; simp [msgItems]
  | cons v vs ih =>
    intro base idx acc hfresh
    simp only [List.map_cons, msgItems]
    have hfr : bkey base idx ∉ acc.map Prod.fst := hfresh idx (Nat.le_refl idx)
    rw [show base ++ "[" ++ Nat.repr idx ++ "]" = bkey base idx from rfl]
    rw [dinsert_fresh _ hfr]
    rw [ih base (idx + 1) (acc ++ [(bkey base idx, Value.scalar v)]) ?_]
    · rw [List.enumFrom_cons]
      simp [List.append_assoc]
    · intro j hj
      rw [List.map_append]
      simp only [List.mem_append, List.map_cons, List.map_nil, List.mem_singleton]
      push_neg
      refine ⟨hfresh j (by omega), ?_⟩
      intro heq
      exact absurd (bkey_inj heq) (by omega)

theorem unpack_list_scalars {α : Type} (pre slot : String) (vs : List α) :
    unpack_message (.comp [(slot, .vlist (vs.map .scalar))]) pre
      = (List.enumFrom 0 vs).map (fun p => (bkey (pre ++ slot) p.1, Value.scalar p.2)) := by
  have h1 : unpack_message (.comp [(slot, .vlist (vs.map .scalar))]) pre
      = msgItems (vs.map .scalar) (pre ++ slot) 0 [] := by
    simp only [unpack_message, msgSlots]
  rw [h1, msgItems_scalars vs (pre ++ slot) 0 [] (by simp)]
  simp

theorem unpack_list_comp_single {α : Type} (pre slot : String)
    (inner : List (String × Value α)) :
    unpack_message (.comp [(slot, .vlist [.comp inner])]) pre
      = unpack_message (.comp inner) (bkey (pre ++ slot) 0) := by
  have h1 : unpack_message (.comp [(slot, .vlist [.comp inner])]) pre
      = dinsertAll [] (unpack_message (.comp inner) ((pre ++ slot) ++ "[" ++ Nat.repr 0 ++ "]")) := by
    simp only [unpack_message, msgSlots, msgItems]
  rw [h1]
  rw [dinsertAll_fresh (unpack_message (.comp inner) ((pre ++ slot) ++ "[" ++ Nat.repr 0 ++ "]")) []
    (unpack_keys_nodup _ _) (by simp)]
  simp [bkey]

/- ------------------------------------------------------------------
Column-union and lookup lemmas.
------------------------------------------------------------------ -/

theorem addNew_mem : ∀ (ks acc : List String) (c : String),
    c ∈ addNew acc ks ↔ c ∈ acc ∨ c ∈ ks := by
  intro ks
  induction ks with
  | nil => intro acc c; simp [addNew]
  | cons k ks ih =>
    intro acc c
    rw [show addNew acc (k :: ks) = addNew (if acc.contains k then acc else acc ++ [k]) ks
      from rfl]
    rw [ih]
    by_cases hc : acc.contains k
    · have hk : k ∈ acc := by simpa using hc
      rw [if_pos hc]
      constructor
      · rintro (h | h)
        · exact Or.inl h
        · exact Or.inr (by simp [h])
      · rintro (h | h)
        · exact Or.inl h
        · rcases List.mem_cons.mp h with rfl | h
          · exact Or.inl hk
          · exact Or.inr h
    · rw [if_neg hc]
      simp only [List.mem_append, List.mem_singleton, List.mem_cons]
      tauto

theorem foldl_addNew_mem {α : Type} :
    ∀ (rows : List (List (String × α))) (acc : List String) (c : String),
      c ∈ rows.foldl (fun acc r => addNew acc (r.map Prod.fst)) acc
        ↔ c ∈ acc ∨ ∃ r ∈ rows, c ∈ r.map Prod.fst := by
  intro rows
  induction rows with
  | nil => intro acc c; simp
  | cons r rows ih =>
    intro acc c
    rw [show (r :: rows).foldl (fun acc r => addNew acc (r.map Prod.fst)) acc
      = rows.foldl (fun acc r => addNew acc (r.map Prod.fst)) (addNew acc (r.map Prod.fst))
      from rfl]
    rw [ih, addNew_mem]
    constructor
    · rintro ((h | h) | ⟨r', hr', h⟩)
      · exact Or.inl h
      · exact Or.inr ⟨r, by simp, h⟩
      · exact Or.inr ⟨r', by simp [hr'], h⟩
    · rintro (h | ⟨r', hr', h⟩)
      · exact Or.inl (Or.inl h)
      · rcases List.mem_cons.mp hr' with rfl | hr'
        · exact Or.inl (Or.inr h)
        · exact Or.inr ⟨r', hr', h⟩

theorem build_columns_mem {α : Type} (rows : List (List (String × α))) (c : String) :
    c ∈ build_columns rows ↔ ∃ r ∈ rows, c ∈ r.map Prod.fst := by
  rw [show build_columns rows = rows.foldl (fun acc r => addNew acc (r.map Prod.fst)) []
    from rfl]
  rw [foldl_addNew_mem]
  simp

theorem lookup_map_self {β : Type} :
    ∀ (U : List String) (f : String → β) (c : String), c ∈ U →
      (U.map (fun c => (c, f c))).lookup c = some (f c) := by
  intro U
  induction U with
  | nil => simp
  | cons u U ih =>
    intro f c hc
    by_cases hcu : c = u
    · subst hcu
      simp [List.lookup]
    · rcases List.mem_cons.mp hc with rfl | hc
      · simp at hcu
      · have hb : (c == u) = false := by simpa using hcu
        simp only [List.map_cons, List.lookup, hb]
        exact ih f c hc

theorem lookup_none_of_not_mem {β : Type} :
    ∀ (r : List (String × β)) (c : String), c ∉ r.map Prod.fst → r.lookup c = none := by
  intro r
  induction r with
  | nil => simp
  | cons kv r ih =>
    intro c hc
    obtain ⟨k, v⟩ := kv
    simp only [List.map_cons, List.mem_cons] at hc
    push_neg at hc
    have hb : (c == k) = false := by simpa using hc.1
    simp only [List.lookup, hb]
    exact ih c hc.2

/- ------------------------------------------------------------------
Sorted permutations.
------------------------------------------------------------------ -/

theorem sorted_perm_nodup_eq :
    ∀ (l1 l2 : List MergedRow), l1.Perm l2 → ascendingByTs l1 → ascendingByTs l2 →
      (l1.map Prod.fst).Nodup → l1 = l2 := by
  intro l1
  induction l1 with
  | nil =>
    intro l2 hp _ _ _
    exact (hp.symm.eq_nil).symm
  | cons x xs ih =>
    intro l2 hp hs1 hs2 hnd
    cases l2 with
    | nil => exact absurd hp.eq_nil (by simp)
    | cons y ys =>
      have hxy : x = y := by
        by_cases hxy : x = y
        · exact hxy
        · have hx2 : x ∈ y :: ys := hp.subset (List.mem_cons_self x xs)
          have hy1 : y ∈ x :: xs := hp.symm.subset (List.mem_cons_self y ys)
          have hxys : x ∈ ys := by
            rcases List.mem_cons.mp hx2 with h | h
            · exact absurd h hxy
            · exact h
          have hyxs : y ∈ xs := by
            rcases List.mem_cons.mp hy1 with h | h
            · exact absurd h.symm hxy
            · exact h
          have h1 : x.1 ≤ y.1 := (List.pairwise_cons.mp hs1).1 y hyxs
          have h2 : y.1 ≤ x.1 := (List.pairwise_cons.mp hs2).1 x hxys
          have heq : x.1 = y.1 := Nat.le_antisymm h1 h2
          simp only [List.map_cons, List.nodup_cons] at hnd
          exact absurd (heq ▸ List.mem_map_of_mem Prod.fst hyxs) hnd.1
      subst hxy
      have htl : xs.Perm ys := hp.cons_inv
      have := ih ys htl (List.pairwise_cons.mp hs1).2 (List.pairwise_cons.mp hs2).2
        (by simp only [List.map_cons, List.nodup_cons] at hnd; exact hnd.2)
      rw [this]

/- ------------------------------------------------------------------
Claim theorems.
------------------------------------------------------------------ -/

/-- C6: an input whose variant cannot be determined (the slotless,
non-list `unknown` shape) flattens to the empty fragment, for every
prefix; `unpack_message` is a total function, so no exception is
possible. -/
theorem C6_unknown_empty {α : Type} :
    ∀ (pre : String), unpack_message (Value.unknown : Value α) pre = [] := by
  intro pre
  simp [unpack_message]

/-- C8: when opening the log source fails, both reading operations
return an empty result instead of raising: `read_msg_data_from_bag`
returns the empty message list and `read_msg_from_bag_as_dataframe`
returns the bare empty Python list of its `except` branch; both are
total functions. -/
theorem C8_failed_open_empty {δ μ : Type} :
    ∀ (e : String) (topic : String) (getMsg : String → δ → μ),
      read_msg_data_from_bag (Except.error e) topic getMsg = []
      ∧ read_msg_from_bag_as_dataframe (Except.error e) topic getMsg
          = PyReadResult.pylist [] := by
  intro e topic getMsg
  exact ⟨rfl, rfl⟩

/-- C10: every key of the flat mapping returned by
`unpack_message msg pre` extends the supplied prefix `pre`: no key
escapes the caller's prefix namespace. -/
theorem C10_keys_carry_given_pre {α : Type} (msg : Value α) (pre : String)
    (k : String) (v : Value α) (hmem : (k, v) ∈ unpack_message msg pre) :
    ∃ s, k = pre ++ s :=
  unpack_key_extends msg pre k v hmem

/-- Witness for C10 at a concrete record and prefix. -/
theorem C10_keys_carry_given_pre_witness : ∃ s, "posx" = "pos" ++ s :=
  C10_keys_carry_given_pre (.comp [("x", .scalar (1 : Int))]) "pos" "posx" (.scalar 1)
    (by rw [show unpack_message (.comp [("x", .scalar (1 : Int))]) "pos"
          = [("posx", Value.scalar 1)] from rfl]
        exact List.mem_singleton.mpr rfl)

/-- C3 counterexample: the code joins a composite field and its nested
field names by plain concatenation, not by a `.` separator — the record
`{a: {b: 1}}` flattens to the key `"ab"`, which is not `"a.b"`, and no
entry exists under the dotted key. -/
theorem C3_counterexample_no_dot :
    unpack_message nestedRec "" = [("ab", Value.scalar 1)]
    ∧ ("ab" : String) ≠ "a.b"
    ∧ (unpack_message nestedRec "").lookup "a.b" = none :=
  ⟨rfl, by decide, rfl⟩

/-- C3 amended: column keys are built by joining the prefix, field
names, and bracketed list indices by *direct concatenation* — a nested
composite's entries are re-keyed as `pre ++ name ++ nestedKey` with an
empty separator (not `.`), and a scalar field is keyed `pre ++ name`. -/
theorem C3_key_concatenation {α : Type} :
    ∀ (pre name : String) (inner : List (String × Value α)) (v : α),
      unpack_message (.comp [(name, .comp inner)]) pre
        = (unpack_message (.comp inner) "").map (fun q => (pre ++ name ++ q.1, q.2))
      ∧ unpack_message (.comp [(name, .scalar v)]) pre = [(pre ++ name, .scalar v)] := by
  intro pre name inner v
  exact ⟨unpack_nested_comp pre name inner, unpack_single_scalar pre name v⟩

/-- C5: a list field is flattened element-wise under the bracketed keys
`pre ++ slot ++ "[" ++ i ++ "]"`: a list of scalars yields exactly one
entry per element under its bracketed key, a structured element is
recursively flattened with the bracketed key as its prefix, and the
spec's `positions` example with prefix `"pose"` evaluates to exactly
the four expected entries. -/
theorem C5_sequence_flattening {α : Type} :
    ∀ (pre slot : String) (vs : List α) (inner : List (String × Value α))
      (v1 v2 v3 v4 : α),
      unpack_message (.comp [(slot, .vlist (vs.map .scalar))]) pre
        = (List.enumFrom 0 vs).map (fun p => (bkey (pre ++ slot) p.1, Value.scalar p.2))
      ∧ unpack_message (.comp [(slot, .vlist [.comp inner])]) pre
        = unpack_message (.comp inner) (bkey (pre ++ slot) 0)
      ∧ unpack_message (.comp [("positions", .vlist
          [.comp [("x", .scalar v1), ("y", .scalar v2)],
           .comp [("x", .scalar v3), ("y", .scalar v4)]])]) "pose"
        = [("posepositions[0]x", .scalar v1), ("posepositions[0]y", .scalar v2),
           ("posepositions[1]x", .scalar v3), ("posepositions[1]y", .scalar v4)] := by
  intro pre slot vs inner v1 v2 v3 v4
  exact ⟨unpack_list_scalars pre slot vs, unpack_list_comp_single pre slot inner, rfl⟩

/-- C7: the materialized table's columns are exactly the union of the
keys seen across all rows (in first-seen order), each row is padded to
that column universe by lookup — a key the row lacks yields `none`
(null) — and the spec's `{a:1}`/`{b:2}` example produces columns
`[a, b]` with the missing cells null. -/
theorem C7_union_columns_padding {α : Type} :
    ∀ (rows : List (List (String × α))) (c : String) (r : List (String × α)),
      (c ∈ (build_table rows).1 ↔ ∃ r ∈ rows, c ∈ r.map Prod.fst)
      ∧ (build_table rows).2
          = rows.map (fun r => (build_table rows).1.map (fun c => r.lookup c))
      ∧ (c ∉ r.map Prod.fst → r.lookup c = none)
      ∧ build_table [[("a", (1 : Int))], [("b", 2)]]
          = (["a", "b"], [[some 1, none], [none, some 2]]) := by
  intro rows c r
  exact ⟨build_columns_mem rows c, rfl, lookup_none_of_not_mem r c, rfl⟩

/-- C1 counterexample: the well-formed record
`{ab: 1, a: {b: 2}}` has two distinct structural paths — the field
`ab`, and the field `b` inside the composite field `a` — that collapse
to the single column key `"ab"`, because keys are concatenated without
a separator; the dict overwrite then silently keeps only the later
value `2`. -/
theorem C1_counterexample_collision :
    wellformed collisionRec = true
    ∧ ¬ ((unpack_entries collisionRec "").map Prod.fst).Nodup
    ∧ unpack_message collisionRec "" = [("ab", Value.scalar 2)] :=
  ⟨rfl, by decide, rfl⟩

/-- C1 amended: key distinctness holds for flat record trees (depth at
most one: each field a scalar or a list of non-composite elements)
whose field names are pairwise distinct and bracket-free; for deeper
trees two distinct structural paths can collapse to one key, as the
counterexample shows. -/
theorem C1_flat_keys_distinct {α : Type} (slots : List (String × Value α)) (pre : String)
    (h1 : flatSlots slots = true) (h2 : namesNodup (slots.map Prod.fst) = true)
    (h3 : namesBracketFree (slots.map Prod.fst) = true) :
    ((unpack_entries (.comp slots) pre).map Prod.fst).Nodup :=
  flat_trace_keys_nodup slots pre h1 h2 h3

/-- Witness for C1's amended statement at a concrete flat record. -/
theorem C1_flat_keys_distinct_witness :
    (flatSlots flatRec = true ∧ namesNodup (flatRec.map Prod.fst) = true
      ∧ namesBracketFree (flatRec.map Prod.fst) = true)
    ∧ ((unpack_entries (.comp flatRec) "p").map Prod.fst).Nodup :=
  ⟨⟨rfl, rfl, rfl⟩, C1_flat_keys_distinct flatRec "p" rfl rfl rfl⟩

/-- C2 counterexample: with two rows of equal timestamp `t = 2` coming
from tables `A` then `B`, the output that swaps them is a legitimate
result of `join_csv_files` (the default `sort_index` algorithm only
guarantees an ascending permutation), yet it differs from the stable
sort of the concatenation — so the claimed tie order is not guaranteed
by the code. -/
theorem C2_counterexample_unstable :
    join_csv_files [tableA, tableB]
      [(2, [("a", none), ("b", some 2)]), (2, [("a", some 1), ("b", none)])]
    ∧ [(2, [("a", none), ("b", some 2)]), (2, [("a", some 1), ("b", none)])]
      ≠ stableSortByTs (concatRows [tableA, tableB]) := by
  refine ⟨⟨by decide, by decide⟩, by decide⟩

/-- C2 amended: every possible output of `join_csv_files` is a
permutation of the concatenated rows (source-table order, then row
order) sorted ascending by timestamp; its timestamp sequence equals
that of the stable sort, and whenever all timestamps are distinct the
output is exactly the stably sorted concatenation — only the relative
order of equal-timestamp rows is left unspecified by the library
default sort. -/
theorem C2_merge_sorted_permutation :
    ∀ (dfs : List CsvTable) (out : List MergedRow), join_csv_files dfs out →
      out.Perm (concatRows dfs)
      ∧ ascendingByTs out
      ∧ out.map Prod.fst = (stableSortByTs (concatRows dfs)).map Prod.fst
      ∧ (((concatRows dfs).map Prod.fst).Nodup → out = stableSortByTs (concatRows dfs)) := by
  intro dfs out h
  obtain ⟨hperm, hasc⟩ := h
  have hsortPerm : (stableSortByTs (concatRows dfs)).Perm (concatRows dfs) :=
    List.perm_insertionSort tsLE _
  have hsortAsc : ascendingByTs (stableSortByTs (concatRows dfs)) :=
    List.sorted_insertionSort tsLE _
  refine ⟨hperm, hasc, ?_, ?_⟩
  · have hp : (out.map Prod.fst).Perm ((stableSortByTs (concatRows dfs)).map Prod.fst) :=
      (hperm.trans hsortPerm.symm).map Prod.fst
    have hs1 : List.Sorted (fun a b : Nat => a ≤ b) (out.map Prod.fst) :=
      List.pairwise_map.mpr hasc
    have hs2 : List.Sorted (fun a b : Nat => a ≤ b)
        ((stableSortByTs (concatRows dfs)).map Prod.fst) :=
      List.pairwise_map.mpr hsortAsc
    exact List.eq_of_perm_of_sorted hp hs1 hs2
  · intro hnd
    have hnd_out : (out.map Prod.fst).Nodup := ((hperm.map Prod.fst).nodup_iff).mpr hnd
    exact sorted_perm_nodup_eq out _ (hperm.trans hsortPerm.symm) hasc hsortAsc hnd_out

/-- Witness for C2's amended statement: the spec's merge-order scenario
`A = [(t=5), (t=1)]`, `B = [(t=3)]`, with the stable sort of the
concatenation as the output. -/
theorem C2_merge_sorted_permutation_witness :
    (stableSortByTs (concatRows [tableC, tableD])).Perm (concatRows [tableC, tableD])
    ∧ ascendingByTs (stableSortByTs (concatRows [tableC, tableD]))
    ∧ (stableSortByTs (concatRows [tableC, tableD])).map Prod.fst
        = (stableSortByTs (concatRows [tableC, tableD])).map Prod.fst
    ∧ (((concatRows [tableC, tableD]).map Prod.fst).Nodup →
        stableSortByTs (concatRows [tableC, tableD])
          = stableSortByTs (concatRows [tableC, tableD])) :=
  C2_merge_sorted_permutation [tableC, tableD]
    (stableSortByTs (concatRows [tableC, tableD])) ⟨by decide, by decide⟩

/-- C4: the merge performs no join on timestamp equality — every output
row of `join_csv_files` originates from exactly one row of one source
table, its cell in each column of the merged universe is that source
row's own value, and every column not belonging to its source table is
null in that row. -/
theorem C4_no_join_row_retention :
    ∀ (dfs : List CsvTable) (out : List MergedRow),
      (∀ t ∈ dfs, ∀ r ∈ t.rows, r.2.map Prod.fst = t.cols) →
      join_csv_files dfs out →
      ∀ row ∈ out, ∃ t ∈ dfs, ∃ r ∈ t.rows,
        row.1 = r.1
        ∧ (∀ c ∈ unionCols dfs, row.2.lookup c = some (r.2.lookup c))
        ∧ (∀ c ∈ unionCols dfs, c ∉ t.cols → r.2.lookup c = none) := by
  intro dfs out hwf hjoin row hrow
  have hmem : row ∈ concatRows dfs := hjoin.1.subset hrow
  obtain ⟨t, ht, hr⟩ := List.mem_flatMap.mp hmem
  obtain ⟨r, hrt, hrow_eq⟩ := List.mem_map.mp hr
  refine ⟨t, ht, r, hrt, ?_, ?_, ?_⟩
  · rw [← hrow_eq]
  · intro c hc
    rw [← hrow_eq]
    exact lookup_map_self (unionCols dfs) (fun c => r.2.lookup c) c hc
  · intro c _ hnc
    apply lookup_none_of_not_mem
    rw [hwf t ht r hrt]
    exact hnc

/-- Witness for C4 at the two one-row tables with equal timestamps,
taking the concatenation itself as the (sorted) output and picking the
row that came from table `A`. -/
theorem C4_no_join_row_retention_witness :
    ∃ t ∈ [tableA, tableB], ∃ r ∈ t.rows,
      ((2 : Nat), [("a", some (1 : Int)), ("b", none)]).1 = r.1
      ∧ (∀ c ∈ unionCols [tableA, tableB],
          ((2 : Nat), [("a", some (1 : Int)), ("b", none)]).2.lookup c
            = some (r.2.lookup c))
      ∧ (∀ c ∈ unionCols [tableA, tableB], c ∉ t.cols → r.2.lookup c = none) :=
  C4_no_join_row_retention [tableA, tableB] (concatRows [tableA, tableB])
    (by decide) ⟨List.Perm.refl _, by decide⟩
    ((2 : Nat), [("a", some (1 : Int)), ("b", none)]) (by decide)

/-- C9 counterexample: `find_rosbag_files` consults only
`root/../DATAIGNORE` — the immediate parent of the file's directory.
In `exampleWorld` the top-level directory `data` carries the sentinel,
yet the bag file two levels deeper is still returned, and the returned
path lies strictly below the marked directory. -/
theorem C9_counterexample_deep_marker :
    find_rosbag_files exampleWorld ["data"] = [["data", "run", "bag", "x.db3"]]
    ∧ existsPath exampleWorld ["data", "DATAIGNORE"] = true
    ∧ ["data", "run", "bag", "x.db3"] = ["data"] ++ ["run", "bag", "x.db3"] :=
  ⟨rfl, rfl, rfl⟩

/-- C9 amended: every path returned by `find_rosbag_files` names a
`.db3` file, and the single directory level the code checks — the
parent of the file's directory — never contains `DATAIGNORE`; sentinels
in higher ancestors are not consulted (see the counterexample). -/
theorem C9_ignore_only_parent :
    ∀ (world : Dir) (fromDir : List String) (p : List String),
      p ∈ find_rosbag_files world fromDir →
      (∃ f, p = p.dropLast ++ [f] ∧ endswith f ".db3" = true)
      ∧ (p.dropLast ≠ [] →
          existsPath world (p.dropLast.dropLast ++ ["DATAIGNORE"]) = false) := by
  intro world fromDir p hp
  unfold find_rosbag_files at hp
  cases hsub : lookupDir fromDir world with
  | none => rw [hsub] at hp; simp at hp
  | some d =>
    rw [hsub] at hp
    obtain ⟨rf, _, hf⟩ := List.mem_flatMap.mp hp
    obtain ⟨f, _, hcond⟩ := List.mem_filterMap.mp hf
    by_cases h1 : endswith f ".db3"
    · by_cases h2 : dataIgnoreCheck world rf.1
      · rw [if_neg (by simp [h1]), if_pos h2] at hcond
        simp at hcond
      · rw [if_neg (by simp [h1]), if_neg h2] at hcond
        have hp_eq : rf.1 ++ [f] = p := by simpa using hcond
        subst hp_eq
        rw [List.dropLast_concat]
        refine ⟨⟨f, rfl, h1⟩, ?_⟩
        intro hne
        have h2f : dataIgnoreCheck world rf.1 = false := by simpa using h2
        cases hroot : rf.1 with
        | nil => exact absurd hroot hne
        | cons a t =>
          rw [hroot] at h2f
          simpa [dataIgnoreCheck] using h2f
    · rw [if_pos (by simp [h1])] at hcond
      simp at hcond

/-- Witness for C9's amended statement at the concrete tree. -/
theorem C9_ignore_only_parent_witness :
    (∃ f, ["data", "run", "bag", "x.db3"]
        = (["data", "run", "bag", "x.db3"] : List String).dropLast ++ [f]
      ∧ endswith f ".db3" = true)
    ∧ ((["data", "run", "bag", "x.db3"] : List String).dropLast ≠ [] →
        existsPath exampleWorld
          ((["data", "run", "bag", "x.db3"] : List String).dropLast.dropLast
            ++ ["DATAIGNORE"]) = false) :=
  C9_ignore_only_parent exampleWorld ["data"] ["data", "run", "bag", "x.db3"]
    (by rw [show find_rosbag_files exampleWorld ["data"]
          = [["data", "run", "bag", "x.db3"]] from rfl]
        exact List.mem_singleton.mpr rfl)
